import Mathlib

/-!
Verification of the z-string engine (ECMAScript String API over UTF-8 storage
with UTF-16 caller-facing indices).

The repository ships the C declaration surface (`src/include/zstring.h`) and the
C++ RAII wrapper (`src/include/zstring.hpp`); the engine itself is external.
Operations are therefore modelled from the specification at the UTF-16
code-unit level: a string is its sequence of UTF-16 code units (`ZStr`), and
each `zstring_*` operation is a pure function on that view.
-/

/-- A string viewed as its sequence of UTF-16 code units, the index space in
which every caller-facing position of the API is expressed. -/
abbrev ZStr := List Nat

/-- Error taxonomy of the engine, mirroring `ZStringError` in `zstring.h`. -/
inductive ZStringError where
  | outOfMemory
  | invalidUtf8
  | indexOutOfBounds
  | invalidArgument
  | regexCompile
  | regexMatch
deriving DecidableEq

/-- `beginsWith t u` decides whether the code-unit sequence `t` occurs at the
very start of `u`. -/
def beginsWith : ZStr → ZStr → Bool
  | [], _ => true
  | _ :: _, [] => false
  | a :: as, b :: bs => a == b && beginsWith as bs

theorem beginsWith_nil_left (u : ZStr) : beginsWith [] u = true := by
  cases u <;> rfl

theorem beginsWith_nil_right (t : ZStr) : beginsWith t [] = decide (t = []) := by
  cases t <;> simp [beginsWith]

theorem beginsWith_iff_take (t u : ZStr) :
    beginsWith t u = true ↔ u.take t.length = t := by
  induction t generalizing u with
  | nil => simp [beginsWith]
  | cons a as ih =>
    cases u with
    | nil => simp [beginsWith]
    | cons b bs =>
      constructor
      · intro h
        simp only [beginsWith, Bool.and_eq_true, beq_iff_eq] at h
        simp only [List.length_cons, List.take_succ_cons, List.cons.injEq]
        exact ⟨h.1.symm, (ih bs).mp h.2⟩
      · intro h
        simp only [List.length_cons, List.take_succ_cons, List.cons.injEq] at h
        simp only [beginsWith, Bool.and_eq_true, beq_iff_eq]
        exact ⟨h.1.symm, (ih bs).mpr h.2⟩

theorem length_le_of_beginsWith {t u : ZStr} (h : beginsWith t u = true) :
    t.length ≤ u.length := by
  have := (beginsWith_iff_take t u).mp h
  have hlen : (u.take t.length).length = t.length := by rw [this]
  simp only [List.length_take] at hlen
  omega

/-- Modelled from the spec: the uniform caller-facing clamping rule of the
Search Engine (a negative or missing position clamps to 0, a position beyond
`length()` clamps to `length()`). -/
def clampPos (len : Nat) (position : Int) : Nat :=
  if position < 0 then 0 else min position.toNat len

theorem clampPos_le (len : Nat) (p : Int) : clampPos len p ≤ len := by
  unfold clampPos
  split <;> omega

theorem clampPos_of_nonpos (len : Nat) {p : Int} (h : p ≤ 0) :
    clampPos len p = 0 := by
  unfold clampPos
  rcases lt_or_eq_of_le h with h' | h'
  · simp [h']
  · subst h'; simp

theorem clampPos_of_ge (len : Nat) {p : Int} (h : (len : Int) ≤ p) :
    clampPos len p = len := by
  unfold clampPos
  have h0 : ¬ p < 0 := by omega
  have : len ≤ p.toNat := by omega
  simp [h0, Nat.min_eq_right this]

/-- Linear scan used by the Search Engine: starting at position `i`, with `k`
candidate positions still to inspect, return the first position where `t`
occurs in `s`. -/
def searchAux (s t : ZStr) : Nat → Nat → Option Nat
  | _, 0 => none
  | i, k + 1 =>
    if beginsWith t (s.drop i) then some i else searchAux s t (i + 1) k

theorem searchAux_eq_some {s t : ZStr} :
    ∀ {i k j : Nat}, searchAux s t i k = some j →
      i ≤ j ∧ j < i + k ∧ beginsWith t (s.drop j) = true ∧
        ∀ m, i ≤ m → m < j → beginsWith t (s.drop m) = false := by
  intro i k
  induction k generalizing i with
  | zero => intro j h; simp [searchAux] at h
  | succ k ih =>
    intro j h
    by_cases hb : beginsWith t (s.drop i) = true
    · simp [searchAux, hb] at h
      subst h
      exact ⟨le_refl _, by omega, hb, fun m h1 h2 => absurd h1 (by omega)⟩
    · simp [searchAux, hb] at h
      obtain ⟨h1, h2, h3, h4⟩ := ih h
      refine ⟨by omega, by omega, h3, fun m hm1 hm2 => ?_⟩
      rcases Nat.eq_or_lt_of_le hm1 with rfl | hm1'
      · simpa using hb
      · exact h4 m hm1' hm2

theorem searchAux_eq_none {s t : ZStr} :
    ∀ {i k : Nat}, searchAux s t i k = none →
      ∀ m, i ≤ m → m < i + k → beginsWith t (s.drop m) = false := by
  intro i k
  induction k generalizing i with
  | zero => intro _ m h1 h2; omega
  | succ k ih =>
    intro h m h1 h2
    by_cases hb : beginsWith t (s.drop i) = true
    · simp [searchAux, hb] at h
    · simp [searchAux, hb] at h
      rcases Nat.eq_or_lt_of_le h1 with rfl | h1'
      · simpa using hb
      · exact ih h m h1' (by omega)

theorem searchAux_isSome {s t : ZStr} {i k m : Nat}
    (h1 : i ≤ m) (h2 : m < i + k) (hb : beginsWith t (s.drop m) = true) :
    (searchAux s t i k).isSome = true := by
  cases hs : searchAux s t i k with
  | some j => rfl
  | none => exact absurd (searchAux_eq_none hs m h1 h2) (by simp [hb])

/-- Modelled from the spec: `indexOf` (C `zstring_index_of`); the caller-facing
position is clamped into `[0, length]`, the first occurrence of the search
string at or after the clamped position is reported as a UTF-16 index, and
absence is reported through the scalar sentinel `-1`, never an error. -/
def zstring_index_of (s t : ZStr) (position : Int) : Int :=
  match searchAux s t (clampPos s.length position)
      (s.length + 1 - clampPos s.length position) with
  | some i => (i : Int)
  | none => -1

/-- Modelled from the spec: `includes` (C `zstring_includes`); true exactly when
the search string occurs at or after the clamped position. -/
def zstring_includes (s t : ZStr) (position : Int) : Bool :=
  (searchAux s t (clampPos s.length position)
    (s.length + 1 - clampPos s.length position)).isSome

/-- Modelled from the spec: `startsWith` (C `zstring_starts_with`); true exactly
when the search string occurs at the clamped position itself. -/
def zstring_starts_with (s t : ZStr) (position : Int) : Bool :=
  beginsWith t (s.drop (clampPos s.length position))

theorem index_of_empty_eq_clamp (s : ZStr) (p : Int) :
    zstring_index_of s [] p = (clampPos s.length p : Int) := by
  unfold zstring_index_of
  have hle := clampPos_le s.length p
  have hk : s.length + 1 - clampPos s.length p = (s.length - clampPos s.length p) + 1 := by
    omega
  rw [hk]
  simp [searchAux, beginsWith_nil_left]

/-- C1. Clamping across `indexOf`/`includes`/`startsWith`: a negative or
missing caller-facing position behaves as position 0, a position beyond
`length(s)` behaves as position `length(s)`; at a position clamped to
`length(s)` the search fails unless the search string is empty, in which case
it matches at the clamped position; the empty search string always matches at
the clamped position, and `indexOf` reports absence by the sentinel `-1`
(its result is never below `-1`), not by an error. -/
theorem C1_search_clamping (s t : ZStr) (p : Int) :
    (p ≤ 0 →
      zstring_index_of s t p = zstring_index_of s t 0 ∧
      zstring_includes s t p = zstring_includes s t 0 ∧
      zstring_starts_with s t p = zstring_starts_with s t 0) ∧
    ((s.length : Int) ≤ p →
      zstring_index_of s t p = zstring_index_of s t (s.length : Int) ∧
      zstring_includes s t p = zstring_includes s t (s.length : Int) ∧
      zstring_starts_with s t p = zstring_starts_with s t (s.length : Int)) ∧
    ((s.length : Int) ≤ p →
      zstring_index_of s t p = (if t = [] then (s.length : Int) else -1) ∧
      zstring_includes s t p = decide (t = []) ∧
      zstring_starts_with s t p = decide (t = [])) ∧
    zstring_index_of s [] p = (clampPos s.length p : Int) ∧
    -1 ≤ zstring_index_of s t p := by
  have hclamp0 : clampPos s.length (0 : Int) = 0 := clampPos_of_nonpos _ le_rfl
  have hclampL : clampPos s.length (s.length : Int) = s.length :=
    clampPos_of_ge _ le_rfl
  refine ⟨?_, ?_, ?_, index_of_empty_eq_clamp s p, ?_⟩
  · intro hp
    have h : clampPos s.length p = clampPos s.length 0 := by
      rw [clampPos_of_nonpos _ hp, hclamp0]
    unfold zstring_index_of zstring_includes zstring_starts_with
    rw [h]
    exact ⟨rfl, rfl, rfl⟩
  · intro hp
    have h : clampPos s.length p = clampPos s.length (s.length : Int) := by
      rw [clampPos_of_ge _ hp, hclampL]
    unfold zstring_index_of zstring_includes zstring_starts_with
    rw [h]
    exact ⟨rfl, rfl, rfl⟩
  · intro hp
    have h : clampPos s.length p = s.length := clampPos_of_ge _ hp
    have hk : s.length + 1 - s.length = 1 := by omega
    unfold zstring_index_of zstring_includes zstring_starts_with
    rw [h, hk]
    by_cases ht : t = []
    · subst ht
      simp [searchAux, beginsWith_nil_left]
    · have hb : beginsWith t (s.drop s.length) = false := by
        rw [List.drop_length, beginsWith_nil_right]
        simpa using ht
      simp [searchAux, hb, ht, List.drop_length, beginsWith_nil_right]
  · unfold zstring_index_of
    rcases hs : searchAux s t (clampPos s.length p)
        (s.length + 1 - clampPos s.length p) with _ | i
    · simp [hs]
    · simp [hs]
      omega

/-- Witness for C1 at `s = "ab"`, `t = "b"`, `p = 5`: the position clamps to
`length(s) = 2` and the nonempty search fails with the `-1` sentinel. -/
theorem C1_search_clamping_witness :
    zstring_index_of [97, 98] [98] 5 = -1 := by
  have h := (C1_search_clamping [97, 98] [98] 5).2.2.1 (by decide)
  simpa using h.1

/-- Modelled from the spec: resolution of one signed `slice` argument; a
negative value means `max(length + value, 0)`, a nonnegative value beyond
`length` clamps to `length`. -/
def resolveSliceIndex (len : Nat) (v : Int) : Nat :=
  if v < 0 then ((len : Int) + v).toNat else min v.toNat len

/-- Modelled from the spec: `slice` (C `zstring_slice`); both signed arguments
are resolved by `resolveSliceIndex` and the code units strictly between the
resolved bounds are returned. -/
def zstring_slice (s : ZStr) (start stop : Int) : ZStr :=
  (s.take (resolveSliceIndex s.length stop)).drop (resolveSliceIndex s.length start)

/-- C3. `slice` argument resolution: a negative argument `v` resolves to
`max(length + v, 0)`, a nonnegative argument beyond `length` clamps to
`length`, a nonnegative argument within range is taken as is, and whenever the
resolved start is at or beyond the resolved end the result is empty. -/
theorem C3_slice_resolution (s : ZStr) (a b : Int) :
    (a < 0 → resolveSliceIndex s.length a = ((s.length : Int) + a).toNat) ∧
    (0 ≤ a → (s.length : Int) < a → resolveSliceIndex s.length a = s.length) ∧
    (0 ≤ a → a ≤ (s.length : Int) → resolveSliceIndex s.length a = a.toNat) ∧
    (resolveSliceIndex s.length b ≤ resolveSliceIndex s.length a →
      zstring_slice s a b = []) ∧
    zstring_slice s a b =
      (s.take (resolveSliceIndex s.length b)).drop (resolveSliceIndex s.length a) := by
  refine ⟨?_, ?_, ?_, ?_, rfl⟩
  · intro h; simp [resolveSliceIndex, h]
  · intro h0 hgt
    have hlt : ¬ a < 0 := by omega
    have : s.length ≤ a.toNat := by omega
    simp [resolveSliceIndex, hlt, Nat.min_eq_right this]
  · intro h0 hle
    have hlt : ¬ a < 0 := by omega
    have : a.toNat ≤ s.length := by omega
    simp [resolveSliceIndex, hlt, Nat.min_eq_left this]
  · intro h
    unfold zstring_slice
    apply List.drop_eq_nil_of_le
    calc (s.take (resolveSliceIndex s.length b)).length
        ≤ resolveSliceIndex s.length b := by
          rw [List.length_take]; omega
      _ ≤ resolveSliceIndex s.length a := h

/-- Witness for C3 at `s = "abc"`, `start = 1`, `end = -5`: the end argument
resolves to `max(3 - 5, 0) = 0 ≤ 1`, so the slice is empty. -/
theorem C3_slice_resolution_witness : zstring_slice [97, 98, 99] 1 (-5) = [] :=
  (C3_slice_resolution [97, 98, 99] 1 (-5)).2.2.2.1 (by decide)

/-- Modelled from the spec: `repeat` (C `zstring_repeat`); a negative count
fails with `InvalidArgument`, a count whose product with the UTF-16 length
overflows the 64-bit size type fails with `InvalidArgument` instead of
wrapping, and otherwise the string is concatenated with itself `count`
times. -/
def zstring_repeat (s : ZStr) (n : Int) : Except ZStringError ZStr :=
  if n < 0 then .error .invalidArgument
  else if 2 ^ 64 ≤ s.length * n.toNat then .error .invalidArgument
  else .ok (List.replicate n.toNat s).flatten

/-- C4. `repeat`: count 0 yields the empty string; a successful result has
UTF-16 length exactly `length(s) * n`; an overflowing `length(s) * n` fails
with `InvalidArgument` rather than wrapping; a negative count fails with
`InvalidArgument`. -/
theorem C4_repeat (s : ZStr) (n : Int) :
    (n < 0 → zstring_repeat s n = .error .invalidArgument) ∧
    zstring_repeat s 0 = .ok [] ∧
    (∀ r, zstring_repeat s n = .ok r → r.length = s.length * n.toNat) ∧
    (2 ^ 64 ≤ s.length * n.toNat → zstring_repeat s n = .error .invalidArgument) := by
  refine ⟨?_, ?_, ?_, ?_⟩
  · intro h; simp [zstring_repeat, h]
  · have h64 : ¬ 2 ^ 64 ≤ s.length * (0 : Int).toNat := by simp
    simp [zstring_repeat, h64]
  · intro r hr
    unfold zstring_repeat at hr
    split at hr
    · exact absurd hr (by simp)
    · split at hr
      · exact absurd hr (by simp)
      · simp only [Except.ok.injEq] at hr
        subst hr
        simp [List.length_flatten, List.map_replicate, List.sum_replicate,
          Nat.mul_comm]
  · intro h
    by_cases h1 : n < 0
    · unfold zstring_repeat
      rw [if_pos h1]
    · unfold zstring_repeat
      rw [if_neg h1, if_pos h]

/-- Witness for C4 at `s = "a"`, `n = 3`: success, and the result length is
`1 * 3 = 3`. -/
theorem C4_repeat_witness : ([97, 97, 97] : ZStr).length = ([97] : ZStr).length * (3 : Int).toNat :=
  (C4_repeat [97] 3).2.2.1 [97, 97, 97] (by rfl)

/-- Modelled from the spec: `padStart` (C `zstring_pad_start`); if the string
already reaches the target length it is returned unchanged, an empty pad
string with a positive deficit also returns it unchanged, and otherwise the
pad string is repeated and truncated at a UTF-16 code-unit boundary to exactly
fill the deficit, then prepended. -/
def zstring_pad_start (s : ZStr) (target : Nat) (pad : ZStr) : ZStr :=
  if target ≤ s.length then s
  else if pad = [] then s
  else ((List.replicate (target - s.length) pad).flatten.take (target - s.length)) ++ s

/-- Modelled from the spec: `padEnd` (C `zstring_pad_end`); as `padStart`, with
the truncated repetition of the pad string appended instead. -/
def zstring_pad_end (s : ZStr) (target : Nat) (pad : ZStr) : ZStr :=
  if target ≤ s.length then s
  else if pad = [] then s
  else s ++ ((List.replicate (target - s.length) pad).flatten.take (target - s.length))

theorem pad_filler_length {s pad : ZStr} {target : Nat}
    (hpad : pad ≠ []) :
    ((List.replicate (target - s.length) pad).flatten.take (target - s.length)).length
      = target - s.length := by
  have hp1 : 1 ≤ pad.length := by
    cases pad with
    | nil => exact absurd rfl hpad
    | cons a as => simp
  rw [List.length_take, List.length_flatten, List.map_replicate, List.sum_replicate,
    smul_eq_mul]
  have : target - s.length ≤ (target - s.length) * pad.length := by
    calc target - s.length = (target - s.length) * 1 := by omega
      _ ≤ (target - s.length) * pad.length := Nat.mul_le_mul_left _ hp1
  omega

/-- C5. `padStart`/`padEnd`: when the string already reaches the target length
it is returned unchanged; an empty pad string with a positive deficit also
returns it unchanged (the operation terminates); otherwise the result has
UTF-16 length exactly the target; and `padStart("5", 3, "0") = "005"`. -/
theorem C5_pad (s : ZStr) (target : Nat) (pad : ZStr) :
    (target ≤ s.length →
      zstring_pad_start s target pad = s ∧ zstring_pad_end s target pad = s) ∧
    (pad = [] →
      zstring_pad_start s target pad = s ∧ zstring_pad_end s target pad = s) ∧
    (s.length < target → pad ≠ [] →
      (zstring_pad_start s target pad).length = target ∧
      (zstring_pad_end s target pad).length = target) ∧
    zstring_pad_start [53] 3 [48] = [48, 48, 53] := by
  refine ⟨?_, ?_, ?_, by rfl⟩
  · intro h
    constructor <;> simp [zstring_pad_start, zstring_pad_end, h]
  · intro h
    subst h
    constructor <;> · simp only [zstring_pad_start, zstring_pad_end]; split <;> simp
  · intro hlt hpad
    have hnle : ¬ target ≤ s.length := by omega
    have hfill := @pad_filler_length s pad target hpad
    constructor
    · simp [zstring_pad_start, hnle, hpad, hfill]
      omega
    · simp [zstring_pad_end, hnle, hpad, hfill]
      omega

/-- Witness for C5 at `s = "xy"`, `target = 5`, `pad = "ab"`: the deficit 3 is
filled and the result has length exactly 5. -/
theorem C5_pad_witness :
    (zstring_pad_start [120, 121] 5 [97, 98]).length = 5 :=
  ((C5_pad [120, 121] 5 [97, 98]).2.2.1 (by decide) (by decide)).1

/-- Modelled from the spec: `charAt` (C `zstring_char_at`); direct indexed
access beyond `[0, length)` fails with `IndexOutOfBounds`, otherwise the
single code unit at the index is returned as a one-unit string. -/
def zstring_char_at (s : ZStr) (index : Nat) : Except ZStringError ZStr :=
  if h : index < s.length then .ok [s.get ⟨index, h⟩]
  else .error .indexOutOfBounds

/-- Modelled from the spec: `charCodeAt` (C `zstring_char_code_at`); as
`charAt`, returning the code unit value itself. -/
def zstring_char_code_at (s : ZStr) (index : Nat) : Except ZStringError Nat :=
  if h : index < s.length then .ok (s.get ⟨index, h⟩)
  else .error .indexOutOfBounds

/-- Modelled from the spec: `codePointAt` (C `zstring_code_point_at`); as
`charCodeAt`, except that a high surrogate followed by a low surrogate is
combined into the supplementary-plane code point, and a lone surrogate is
returned as is. -/
def zstring_code_point_at (s : ZStr) (index : Nat) : Except ZStringError Nat :=
  if h : index < s.length then
    let u := s.get ⟨index, h⟩
    if 0xD800 ≤ u ∧ u < 0xDC00 then
      match s.get? (index + 1) with
      | some v =>
        if 0xDC00 ≤ v ∧ v < 0xE000 then
          .ok (0x10000 + (u - 0xD800) * 0x400 + (v - 0xDC00))
        else .ok u
      | none => .ok u
    else .ok u
  else .error .indexOutOfBounds

/-- Resolution of the caller-facing signed index of `at`: a negative index
counts from the end of the string. -/
def atIndex (len : Nat) (index : Int) : Int :=
  if index < 0 then (len : Int) + index else index

/-- Modelled from the spec: `at` (C `zstring_at`); a negative index counts from
the end, and any resolved index outside `[0, length)` yields "no value"
(`none`), never an error. -/
def zstring_at (s : ZStr) (index : Int) : Option ZStr :=
  if atIndex s.length index < 0 then none
  else (s[(atIndex s.length index).toNat]?).map (fun u => [u])

/-- C6. Indexed access: `charAt`/`charCodeAt`/`codePointAt` fail with
`IndexOutOfBounds` at every index outside `[0, length)`, in particular at
`length(s)` itself; `at` never errors on an out-of-range index but yields no
value, `at(s, -1)` is the last character, and `at(s, -(length(s)+1))` is no
value. -/
theorem C6_char_access (s : ZStr) (i : Nat) :
    (s.length ≤ i →
      zstring_char_at s i = .error .indexOutOfBounds ∧
      zstring_char_code_at s i = .error .indexOutOfBounds ∧
      zstring_code_point_at s i = .error .indexOutOfBounds) ∧
    zstring_char_at s s.length = .error .indexOutOfBounds ∧
    (∀ j : Int, j < -(s.length : Int) ∨ (s.length : Int) ≤ j →
      zstring_at s j = none) ∧
    (∀ h : s ≠ [], zstring_at s (-1) = some [s.getLast h]) ∧
    zstring_at s (-((s.length : Int) + 1)) = none := by
  have herr : ∀ m : Nat, s.length ≤ m →
      zstring_char_at s m = .error .indexOutOfBounds ∧
      zstring_char_code_at s m = .error .indexOutOfBounds ∧
      zstring_code_point_at s m = .error .indexOutOfBounds := by
    intro m hm
    have hnot : ¬ m < s.length := by omega
    refine ⟨?_, ?_, ?_⟩ <;>
      simp [zstring_char_at, zstring_char_code_at, zstring_code_point_at, hnot]
  refine ⟨herr i, (herr s.length le_rfl).1, ?_, ?_, ?_⟩
  · intro j hj
    unfold zstring_at
    rcases hj with hj | hj
    · have hk : atIndex s.length j = (s.length : Int) + j := by
        unfold atIndex; rw [if_pos (by omega)]
      rw [hk, if_pos (by omega)]
    · have hneg : ¬ j < 0 := by omega
      have hk : atIndex s.length j = j := by
        unfold atIndex; rw [if_neg hneg]
      rw [hk, if_neg (by omega)]
      have hout : s.length ≤ j.toNat := by omega
      rw [List.getElem?_eq_none hout]
      rfl
  · intro h
    have hpos : 0 < s.length := List.length_pos.mpr h
    unfold zstring_at
    have hk : atIndex s.length (-1) = (s.length : Int) - 1 := by
      unfold atIndex; rw [if_pos (by omega)]; ring
    rw [hk, if_neg (by omega)]
    have hidx : ((s.length : Int) - 1).toNat = s.length - 1 := by omega
    rw [hidx, List.getElem?_eq_getElem (by omega), List.getLast_eq_getElem]
    rfl
  · unfold zstring_at
    have hk : atIndex s.length (-((s.length : Int) + 1)) = -1 := by
      unfold atIndex; rw [if_pos (by omega)]; ring
    rw [hk, if_pos (by omega)]

/-- Witness for C6 at `s = "ab"`: `charAt` at index `2 = length(s)` fails with
`IndexOutOfBounds`, and `at(s, -1)` returns the last character `"b"`. -/
theorem C6_char_access_witness :
    zstring_char_at [97, 98] 2 = .error .indexOutOfBounds ∧
    zstring_at [97, 98] (-1) = some [98] := by
  have h := C6_char_access [97, 98] 2
  exact ⟨(h.1 (by decide)).1, h.2.2.2.1 (by decide)⟩

/-- Split loop of the Split Engine: repeatedly find the next occurrence of the
nonempty separator and cut there; `fuel` bounds the recursion and is chosen
large enough that it never runs out before the separator stops occurring. -/
def splitAux (sep : ZStr) : Nat → ZStr → List ZStr
  | 0, s => [s]
  | fuel + 1, s =>
    match searchAux s sep 0 (s.length + 1) with
    | none => [s]
    | some i => s.take i :: splitAux sep fuel (s.drop (i + sep.length))

/-- Modelled from the spec: `split` (C `zstring_split`); a `NULL` separator
yields one result containing the original string, an empty separator splits
into the individual UTF-16 code units as singleton strings, and a nonempty
separator cuts at each literal occurrence, a nonzero `limit` keeping only the
first `limit` results while `limit = 0` means unlimited. -/
def zstring_split (s : ZStr) (separator : Option ZStr) (limit : Nat) : List ZStr :=
  match separator with
  | none => [s]
  | some [] => s.map (fun u => [u])
  | some sep =>
    if limit = 0 then splitAux sep (s.length + 1) s
    else (splitAux sep (s.length + 1) s).take limit

theorem splitAux_ne_nil (sep : ZStr) (fuel : Nat) (s : ZStr) :
    splitAux sep fuel s ≠ [] := by
  cases fuel with
  | zero => simp [splitAux]
  | succ fuel =>
    unfold splitAux
    rcases h : searchAux s sep 0 (s.length + 1) with _ | i <;> simp

/-- C2. `split`: a `NULL` separator returns the one-element sequence holding
the original string for every limit; an empty separator returns the UTF-16
code units of `s` as singleton strings for every limit; `limit = 0` means
unlimited (never an empty result, and a nonzero limit merely truncates the
unlimited result); and `split("a,b,,c", ",", 0) = ["a", "b", "", "c"]`. -/
theorem C2_split (s : ZStr) (limit : Nat) :
    zstring_split s none limit = [s] ∧
    zstring_split s (some []) limit = s.map (fun u => [u]) ∧
    (∀ sep : ZStr, sep ≠ [] → zstring_split s (some sep) 0 ≠ []) ∧
    (∀ sep : ZStr, sep ≠ [] → limit ≠ 0 →
      zstring_split s (some sep) limit = (zstring_split s (some sep) 0).take limit) ∧
    zstring_split [97, 44, 98, 44, 44, 99] (some [44]) 0 = [[97], [98], [], [99]] := by
  refine ⟨rfl, rfl, ?_, ?_, by rfl⟩
  · intro sep hsep
    cases sep with
    | nil => exact absurd rfl hsep
    | cons a as =>
      unfold zstring_split
      simp only [if_pos rfl]
      exact splitAux_ne_nil _ _ _
  · intro sep hsep hlim
    cases sep with
    | nil => exact absurd rfl hsep
    | cons a as => simp [zstring_split, hlim]

/-- Modelled from the spec: `replace` (C `zstring_replace`) on a literal search
value; only the first occurrence of the search string is substituted, and a
string without occurrence is returned unchanged. -/
def zstring_replace (s pat rep : ZStr) : ZStr :=
  match searchAux s pat 0 (s.length + 1) with
  | none => s
  | some i => s.take i ++ rep ++ s.drop (i + pat.length)

/-- Replacement loop of `replaceAll`: substitute the first occurrence, then
continue after it, a zero-length match being advanced past by one UTF-16 unit;
`fuel` bounds the recursion and is chosen large enough never to run out. -/
def replaceAllAux (pat rep : ZStr) : Nat → ZStr → ZStr
  | 0, s => s
  | fuel + 1, s =>
    match searchAux s pat 0 (s.length + 1) with
    | none => s
    | some i =>
      if pat.length = 0 then
        match s.drop i with
        | [] => s.take i ++ rep
        | c :: rest => s.take i ++ rep ++ c :: replaceAllAux pat rep fuel rest
      else
        s.take i ++ rep ++ replaceAllAux pat rep fuel (s.drop (i + pat.length))

/-- Modelled from the spec: `replaceAll` (C `zstring_replace_all`) on a literal
search value; every non-overlapping occurrence is substituted, a zero-length
match being advanced past by one UTF-16 unit so the loop terminates. -/
def zstring_replace_all (s pat rep : ZStr) : ZStr :=
  replaceAllAux pat rep (s.length + 1) s

theorem replaceAllAux_succ (pat rep : ZStr) (fuel : Nat) (s : ZStr) :
    replaceAllAux pat rep (fuel + 1) s =
      match searchAux s pat 0 (s.length + 1) with
      | none => s
      | some i =>
        if pat.length = 0 then
          match s.drop i with
          | [] => s.take i ++ rep
          | c :: rest => s.take i ++ rep ++ c :: replaceAllAux pat rep fuel rest
        else
          s.take i ++ rep ++ replaceAllAux pat rep fuel (s.drop (i + pat.length)) := rfl

theorem replaceAllAux_fuel (pat rep : ZStr) :
    ∀ f₁ f₂ s, s.length < f₁ → s.length < f₂ →
      replaceAllAux pat rep f₁ s = replaceAllAux pat rep f₂ s := by
  intro f₁
  induction f₁ with
  | zero => intro f₂ s h1 _; omega
  | succ k ih =>
    intro f₂ s h1 h2
    cases f₂ with
    | zero => omega
    | succ m =>
      rw [replaceAllAux_succ, replaceAllAux_succ]
      rcases hs : searchAux s pat 0 (s.length + 1) with _ | i
      · rfl
      · obtain ⟨-, hilt, hb, -⟩ := searchAux_eq_some hs
        by_cases hp : pat.length = 0
        · simp only [if_pos hp]
          rcases hd : s.drop i with _ | ⟨c, rest⟩
          · rfl
          · have hrest : rest.length < s.length := by
              have : (s.drop i).length = s.length - i := List.length_drop i s
              rw [hd] at this
              simp at this
              omega
            dsimp only
            rw [ih m rest (by omega) (by omega)]
        · simp only [if_neg hp]
          have hlenle : pat.length ≤ (s.drop i).length := length_le_of_beginsWith hb
          have hdlen : (s.drop i).length = s.length - i := List.length_drop i s
          have hrest : (s.drop (i + pat.length)).length < s.length := by
            rw [List.length_drop]
            omega
          rw [ih m (s.drop (i + pat.length)) (by omega) (by omega)]

theorem searchAux_first {s pat : ZStr} {i : Nat}
    (hb : beginsWith pat (s.drop i) = true)
    (hmin : ∀ j, j < i → beginsWith pat (s.drop j) = false) :
    searchAux s pat 0 (s.length + 1) = some i := by
  have hile : i ≤ s.length := by
    by_contra hgt
    have hdrop : s.drop i = [] := List.drop_eq_nil_of_le (by omega)
    rw [hdrop, beginsWith_nil_right] at hb
    have hpat : pat = [] := by simpa using hb
    subst hpat
    have := hmin 0 (by omega)
    rw [beginsWith_nil_left] at this
    exact absurd this (by simp)
  rcases hs : searchAux s pat 0 (s.length + 1) with _ | j
  · have := searchAux_eq_none hs i (by omega) (by omega)
    rw [hb] at this
    exact absurd this (by simp)
  · obtain ⟨-, -, hbj, hminj⟩ := searchAux_eq_some hs
    rcases Nat.lt_trichotomy i j with hij | hij | hij
    · have := hminj i (by omega) hij
      rw [hb] at this
      exact absurd this (by simp)
    · rw [hij]
    · have := hmin j hij
      rw [hbj] at this
      exact absurd this (by simp)

/-- C7. `replace` substitutes only the first occurrence of the search string
(and leaves a string without occurrence unchanged); `replaceAll` substitutes
every non-overlapping occurrence, the step after a match resuming right after
it, and a zero-length match being advanced past by one UTF-16 unit; the loop
terminates, with `replaceAll("aaa", "a", "b") = "bbb"` and
`replaceAll("", "", "x") = "x"`. -/
theorem C7_replace_semantics (s pat rep : ZStr) :
    ((∀ j, beginsWith pat (s.drop j) = false) →
      zstring_replace s pat rep = s ∧ zstring_replace_all s pat rep = s) ∧
    (∀ i, beginsWith pat (s.drop i) = true →
      (∀ j, j < i → beginsWith pat (s.drop j) = false) →
      zstring_replace s pat rep = s.take i ++ rep ++ s.drop (i + pat.length)) ∧
    (pat ≠ [] → ∀ i, beginsWith pat (s.drop i) = true →
      (∀ j, j < i → beginsWith pat (s.drop j) = false) →
      zstring_replace_all s pat rep =
        s.take i ++ rep ++ zstring_replace_all (s.drop (i + pat.length)) pat rep) ∧
    (s = [] → zstring_replace_all s [] rep = rep) ∧
    (∀ c rest, s = c :: rest →
      zstring_replace_all s [] rep = rep ++ c :: zstring_replace_all rest [] rep) ∧
    zstring_replace_all [97, 97, 97] [97] [98] = [98, 98, 98] ∧
    zstring_replace_all [] [] [120] = [120] := by
  refine ⟨?_, ?_, ?_, ?_, ?_, by rfl, by rfl⟩
  · intro hno
    have hs : searchAux s pat 0 (s.length + 1) = none := by
      rcases hs : searchAux s pat 0 (s.length + 1) with _ | j
      · rfl
      · obtain ⟨-, -, hbj, -⟩ := searchAux_eq_some hs
        rw [hno j] at hbj
        exact absurd hbj (by simp)
    constructor
    · unfold zstring_replace
      rw [hs]
    · unfold zstring_replace_all
      rw [replaceAllAux_succ, hs]
  · intro i hb hmin
    unfold zstring_replace
    rw [searchAux_first hb hmin]
  · intro hpat i hb hmin
    have hp : ¬ pat.length = 0 := by
      cases pat with
      | nil => exact absurd rfl hpat
      | cons a as => simp
    have hlenle : pat.length ≤ (s.drop i).length := length_le_of_beginsWith hb
    have hdlen : (s.drop i).length = s.length - i := List.length_drop i s
    have hslen : 0 < s.length := by omega
    unfold zstring_replace_all
    rw [replaceAllAux_succ, searchAux_first hb hmin]
    simp only [if_neg hp]
    rw [replaceAllAux_fuel pat rep s.length ((s.drop (i + pat.length)).length + 1)
      (s.drop (i + pat.length)) (by rw [List.length_drop]; omega) (by omega)]
  · intro h
    subst h
    rfl
  · intro c rest h
    subst h
    have hb : beginsWith ([] : ZStr) ((c :: rest).drop 0) = true := beginsWith_nil_left _
    unfold zstring_replace_all
    rw [replaceAllAux_succ, searchAux_first hb (fun j hj => by omega)]
    simp [List.length_cons]

/-- Witness for C7 at `s = "aba"`, `pat = "a"`, `rep = "c"`: the first
occurrence is at index 0 and only it is substituted. -/
theorem C7_replace_semantics_witness :
    zstring_replace [97, 98, 97] [97] [99] = [99, 98, 97] := by
  have h := (C7_replace_semantics [97, 98, 97] [97] [99]).2.1 0 (by decide)
    (fun j hj => by omega)
  simpa using h

/-- Modelled from the spec: strict UTF-8 decoding used at construction time;
rejects continuation errors, overlong encodings, surrogates encoded as UTF-8
and out-of-range code points, returning the decoded code-point sequence. -/
def utf8Decode : List Nat → Option (List Nat)
  | [] => some []
  | b :: rest =>
    if b < 0x80 then
      (utf8Decode rest).map (fun cps => b :: cps)
    else if 0xC2 ≤ b ∧ b ≤ 0xDF then
      match rest with
      | b1 :: rest1 =>
        if 0x80 ≤ b1 ∧ b1 ≤ 0xBF then
          (utf8Decode rest1).map (fun cps => ((b - 0xC0) * 0x40 + (b1 - 0x80)) :: cps)
        else none
      | [] => none
    else if 0xE0 ≤ b ∧ b ≤ 0xEF then
      match rest with
      | b1 :: b2 :: rest2 =>
        if (0x80 ≤ b1 ∧ b1 ≤ 0xBF) ∧ (0x80 ≤ b2 ∧ b2 ≤ 0xBF) ∧
            0x800 ≤ (b - 0xE0) * 0x1000 + (b1 - 0x80) * 0x40 + (b2 - 0x80) ∧
            ¬ (0xD800 ≤ (b - 0xE0) * 0x1000 + (b1 - 0x80) * 0x40 + (b2 - 0x80) ∧
               (b - 0xE0) * 0x1000 + (b1 - 0x80) * 0x40 + (b2 - 0x80) ≤ 0xDFFF) then
          (utf8Decode rest2).map
            (fun cps => ((b - 0xE0) * 0x1000 + (b1 - 0x80) * 0x40 + (b2 - 0x80)) :: cps)
        else none
      | _ => none
    else if 0xF0 ≤ b ∧ b ≤ 0xF4 then
      match rest with
      | b1 :: b2 :: b3 :: rest3 =>
        if (0x80 ≤ b1 ∧ b1 ≤ 0xBF) ∧ (0x80 ≤ b2 ∧ b2 ≤ 0xBF) ∧ (0x80 ≤ b3 ∧ b3 ≤ 0xBF) ∧
            0x10000 ≤ (b - 0xF0) * 0x40000 + (b1 - 0x80) * 0x1000 +
              (b2 - 0x80) * 0x40 + (b3 - 0x80) ∧
            (b - 0xF0) * 0x40000 + (b1 - 0x80) * 0x1000 +
              (b2 - 0x80) * 0x40 + (b3 - 0x80) ≤ 0x10FFFF then
          (utf8Decode rest3).map
            (fun cps => ((b - 0xF0) * 0x40000 + (b1 - 0x80) * 0x1000 +
              (b2 - 0x80) * 0x40 + (b3 - 0x80)) :: cps)
        else none
      | _ => none
    else none

/-- UTF-16 code-unit count of a code-point sequence: one unit for a code point
in the basic multilingual plane, two (a surrogate pair) above it. -/
def utf16Len (cps : List Nat) : Nat :=
  (cps.map (fun c => if c < 0x10000 then 1 else 2)).sum

/-- The String Core: validated UTF-8 bytes plus the cached UTF-16 length. -/
structure StringCore where
  bytes : List Nat
  utf16Length : Nat
deriving DecidableEq

/-- Modelled from the spec: construction of a String Core (C `zstring_init`)
from non-null UTF-8 input bytes; invalid UTF-8 fails with `InvalidUtf8`,
otherwise the bytes are kept and the UTF-16 length is computed once. -/
def zstring_init (bytes : List Nat) : Except ZStringError StringCore :=
  match utf8Decode bytes with
  | none => .error .invalidUtf8
  | some cps => .ok ⟨bytes, utf16Len cps⟩

/-- The C++ wrapper constructor `zstring::String::String(const char*)` from
`zstring.hpp`: a null pointer (modelled as `none`) is rejected up front with
`InvalidArgument`; `zstring_init` receives only the pointee bytes of a
non-null pointer, so it is never invoked on the null pointer. -/
def cpp_String_from_cstr (p : Option (List Nat)) : Except ZStringError StringCore :=
  match p with
  | none => .error .invalidArgument
  | some bytes => zstring_init bytes

/-- C10. Constructing the C++ wrapper `String` from a null `const char*` fails
with error code `ZSTRING_ERROR_INVALID_ARGUMENT` — and in particular not with
`InvalidUtf8`: the null check precedes and so bypasses `zstring_init`. -/
theorem C10_null_pointer_ctor :
    cpp_String_from_cstr none = .error .invalidArgument ∧
    cpp_String_from_cstr none ≠ .error .invalidUtf8 := by
  exact ⟨rfl, by simp [cpp_String_from_cstr]⟩

/-- Witness for C2 at `s = "a,"`, `limit = 2`: a nonzero limit truncates the
unlimited (`limit = 0`) result. -/
theorem C2_split_witness :
    zstring_split [97, 44] (some [44]) 2 = (zstring_split [97, 44] (some [44]) 0).take 2 :=
  (C2_split [97, 44] 2).2.2.2.1 [44] (by decide) (by decide)

/-- Witness for C10: the null-pointer constructor result evaluated. -/
theorem C10_null_pointer_ctor_witness :
    cpp_String_from_cstr none = .error .invalidArgument :=
  C10_null_pointer_ctor.1

/-- Modelled from the spec: canonical combining class of a code point; the
representative fragment of the Unicode data used by this development assigns
class 230 to COMBINING ACUTE ACCENT (U+0301) and class 220 to COMBINING DOT
BELOW (U+0323); every other code point is a starter (class 0). -/
def combiningClass (c : Nat) : Nat :=
  if c = 0x301 then 230
  else if c = 0x323 then 220
  else 0

/-- Modelled from the spec: full canonical decomposition table (the fragment
maps LATIN SMALL LETTER E WITH ACUTE, U+00E9, to `e` followed by the combining
acute accent; the mapping is stored fully decomposed). -/
def canonicalDecomp (c : Nat) : Option (List Nat) :=
  if c = 0xE9 then some [0x65, 0x301] else none

/-- Modelled from the spec: compatibility decomposition, a superset of the
canonical one (the fragment additionally maps CIRCLED DIGIT ONE, U+2460, to
the plain digit one). -/
def compatDecomp (c : Nat) : Option (List Nat) :=
  if c = 0x2460 then some [0x31] else canonicalDecomp c

/-- Modelled from the spec: primary canonical composition table, the inverse
of the canonical decompositions (`e` + combining acute composes to U+00E9). -/
def composePair (a b : Nat) : Option Nat :=
  if a = 0x65 ∧ b = 0x301 then some 0xE9 else none

/-- Full canonical decomposition of a code-point sequence: each code point is
replaced by its full decomposition, other code points pass through. -/
def fullDecompose (s : List Nat) : List Nat :=
  (s.map (fun c => (canonicalDecomp c).getD [c])).flatten

/-- Full compatibility decomposition, as `fullDecompose` with the
compatibility table. -/
def fullCompatDecompose (s : List Nat) : List Nat :=
  (s.map (fun c => (compatDecomp c).getD [c])).flatten

/-- Canonical ordering step: insert one combining mark into an already ordered
run, moving it left past marks of strictly greater class only, and never past
a starter (class 0 acts as a barrier). -/
def insertMark (m : Nat) : List Nat → List Nat
  | [] => [m]
  | x :: xs =>
    if combiningClass x ≠ 0 ∧ combiningClass x < combiningClass m then
      x :: insertMark m xs
    else m :: x :: xs

/-- Modelled from the spec: the Canonical Ordering Algorithm — a stable sort
of each run of combining marks by combining class, starters (class 0) acting
as ordering barriers. -/
def canonicalOrder : List Nat → List Nat
  | [] => []
  | c :: cs =>
    if combiningClass c = 0 then c :: canonicalOrder cs
    else insertMark c (canonicalOrder cs)

/-- Ordering invariant between two adjacent code points of a canonically
ordered sequence: either the second is a starter, or the classes do not
decrease. -/
def ccOrdered (u v : Nat) : Prop :=
  combiningClass v = 0 ∨ combiningClass u ≤ combiningClass v

/-- Whether a combining mark may still reach the starter: it is blocked when
the most recently pending mark has a class at least as high. -/
def notBlocked (pend : List Nat) (x : Nat) : Bool :=
  match pend with
  | [] => true
  | p :: _ => combiningClass p < combiningClass x

/-- Modelled from the spec: greedy canonical composition of one block; `cur`
is the (possibly already composed) starter, `pend` the reversed list of marks
that could not be composed, and the walk stops at the next starter, which
opens a new block. -/
def compBlock (cur : Nat) (pend : List Nat) : List Nat → List Nat
  | [] => cur :: pend.reverse
  | x :: xs =>
    if combiningClass x = 0 then
      (cur :: pend.reverse) ++ compBlock x [] xs
    else
      match composePair cur x with
      | some c' =>
        if notBlocked pend x then compBlock c' pend xs
        else compBlock cur (x :: pend) xs
      | none => compBlock cur (x :: pend) xs

/-- Modelled from the spec: canonical composition of a canonically ordered
sequence; leading combining marks have no starter to combine with and pass
through, and each starter opens a greedy composition block. -/
def composeSeq : List Nat → List Nat
  | [] => []
  | c :: cs =>
    if combiningClass c = 0 then compBlock c [] cs
    else c :: composeSeq cs

/-- Modelled from the spec: Normalization Form D — full canonical
decomposition followed by canonical ordering. -/
def nfd (s : List Nat) : List Nat := canonicalOrder (fullDecompose s)

/-- Modelled from the spec: Normalization Form C — NFD followed by canonical
composition. -/
def nfc (s : List Nat) : List Nat := composeSeq (nfd s)

/-- Modelled from the spec: Normalization Form KD — compatibility
decomposition followed by canonical ordering. -/
def nfkd (s : List Nat) : List Nat := canonicalOrder (fullCompatDecompose s)

/-- Modelled from the spec: Normalization Form KC — compatibility
decomposition, canonical ordering, then canonical composition. -/
def nfkc (s : List Nat) : List Nat := composeSeq (nfkd s)

/-- Modelled from the spec: `normalize` (C `zstring_normalize`) on the
code-point view of the string; a `NULL` form means `"NFC"` and an unknown
form fails with `InvalidArgument`. -/
def zstring_normalize (s : List Nat) (form : Option String) : Except ZStringError (List Nat) :=
  match form with
  | none => .ok (nfc s)
  | some f =>
    if f = "NFC" then .ok (nfc s)
    else if f = "NFD" then .ok (nfd s)
    else if f = "NFKC" then .ok (nfkc s)
    else if f = "NFKD" then .ok (nfkd s)
    else .error .invalidArgument

theorem cc_cases {c : Nat} (h : combiningClass c ≠ 0) : c = 0x301 ∨ c = 0x323 := by
  unfold combiningClass at h
  by_cases h1 : c = 0x301
  · exact Or.inl h1
  · by_cases h2 : c = 0x323
    · exact Or.inr h2
    · simp [h1, h2] at h

theorem decomp_of_mark {c : Nat} (h : combiningClass c ≠ 0) :
    canonicalDecomp c = none := by
  rcases cc_cases h with h1 | h1 <;> subst h1 <;> rfl

theorem decomp_closed {c : Nat} {l : List Nat} (h : canonicalDecomp c = some l) :
    ∀ d ∈ l, canonicalDecomp d = none := by
  unfold canonicalDecomp at h
  split at h
  · cases h
    intro d hd
    rcases List.mem_cons.mp hd with rfl | hd
    · rfl
    · rcases List.mem_cons.mp hd with rfl | hd
      · rfl
      · exact absurd hd (List.not_mem_nil d)
  · cases h

theorem fullDecompose_nil : fullDecompose [] = [] := rfl

theorem fullDecompose_cons (c : Nat) (s : List Nat) :
    fullDecompose (c :: s) = (canonicalDecomp c).getD [c] ++ fullDecompose s := by
  simp [fullDecompose]

theorem fullDecompose_append (s t : List Nat) :
    fullDecompose (s ++ t) = fullDecompose s ++ fullDecompose t := by
  simp [fullDecompose]

theorem fullDecompose_of_none {l : List Nat}
    (h : ∀ c ∈ l, canonicalDecomp c = none) : fullDecompose l = l := by
  induction l with
  | nil => rfl
  | cons c cs ih =>
    rw [fullDecompose_cons, h c (by simp), ih (fun d hd => h d (by simp [hd]))]
    rfl

theorem fullDecompose_elems_none {s : List Nat} :
    ∀ d ∈ fullDecompose s, canonicalDecomp d = none := by
  induction s with
  | nil => simp [fullDecompose_nil]
  | cons c cs ih =>
    intro d hd
    rw [fullDecompose_cons] at hd
    rcases List.mem_append.mp hd with hd | hd
    · rcases hc : canonicalDecomp c with _ | l
      · rw [hc] at hd
        simp at hd
        subst hd
        exact hc
      · rw [hc] at hd
        exact decomp_closed hc d hd
    · exact ih d hd

theorem mem_insertMark {y m : Nat} : ∀ {l : List Nat},
    y ∈ insertMark m l → y = m ∨ y ∈ l := by
  intro l
  induction l with
  | nil => intro h; simpa [insertMark] using h
  | cons x xs ih =>
    intro h
    unfold insertMark at h
    split at h
    · rcases List.mem_cons.mp h with rfl | h
      · exact Or.inr (by simp)
      · rcases ih h with h | h
        · exact Or.inl h
        · exact Or.inr (by simp [h])
    · rcases List.mem_cons.mp h with rfl | h
      · exact Or.inl rfl
      · exact Or.inr h

theorem mem_canonicalOrder {y : Nat} : ∀ {l : List Nat},
    y ∈ canonicalOrder l → y ∈ l := by
  intro l
  induction l with
  | nil => intro h; simpa [canonicalOrder] using h
  | cons c cs ih =>
    intro h
    unfold canonicalOrder at h
    split at h
    · rcases List.mem_cons.mp h with rfl | h
      · simp
      · simp [ih h]
    · rcases mem_insertMark h with rfl | h
      · simp
      · simp [ih h]

theorem chain'_insertMark {m : Nat} (hm : combiningClass m ≠ 0) :
    ∀ {l : List Nat}, List.Chain' ccOrdered l →
      List.Chain' ccOrdered (insertMark m l) := by
  intro l
  induction l with
  | nil => intro _; simp [insertMark]
  | cons x xs ih =>
    intro h
    unfold insertMark
    split
    · next hcond =>
      have hxs : List.Chain' ccOrdered xs := h.tail
      have hins := ih hxs
      cases xs with
      | nil =>
        simp [insertMark]
        exact Or.inr (le_of_lt hcond.2)
      | cons y ys =>
        rw [List.chain'_cons] at h
        unfold insertMark
        split
        · next hcond2 =>
          unfold insertMark at hins
          rw [if_pos hcond2] at hins
          exact List.chain'_cons.mpr ⟨h.1, hins⟩
        · next hcond2 =>
          refine List.chain'_cons.mpr ⟨Or.inr (le_of_lt hcond.2), ?_⟩
          unfold insertMark at hins
          rw [if_neg hcond2] at hins
          exact hins
    · next hcond =>
      refine List.chain'_cons.mpr ⟨?_, h⟩
      rcases Decidable.not_and_iff_or_not.mp hcond with h1 | h1
      · exact Or.inl (Decidable.not_not.mp h1)
      · exact Or.inr (le_of_not_lt h1)

theorem chain'_canonicalOrder : ∀ (l : List Nat),
    List.Chain' ccOrdered (canonicalOrder l) := by
  intro l
  induction l with
  | nil => simp [canonicalOrder]
  | cons c cs ih =>
    unfold canonicalOrder
    split
    · next hc =>
      cases hco : canonicalOrder cs with
      | nil => simp
      | cons y ys =>
        rw [hco] at ih
        refine List.chain'_cons.mpr ⟨?_, ih⟩
        by_cases hy : combiningClass y = 0
        · exact Or.inl hy
        · exact Or.inr (by rw [hc]; omega)
    · next hc => exact chain'_insertMark hc ih

theorem insertMark_of_chain {m : Nat} {l : List Nat}
    (h : List.Chain' ccOrdered (m :: l)) : insertMark m l = m :: l := by
  cases l with
  | nil => rfl
  | cons x xs =>
    rw [List.chain'_cons] at h
    unfold insertMark
    rcases h.1 with h1 | h1
    · rw [if_neg (by simp [h1])]
    · rw [if_neg (by omega)]

theorem canonicalOrder_of_chain : ∀ {l : List Nat},
    List.Chain' ccOrdered l → canonicalOrder l = l := by
  intro l
  induction l with
  | nil => intro _; rfl
  | cons c cs ih =>
    intro h
    unfold canonicalOrder
    split
    · rw [ih h.tail]
    · rw [ih h.tail]
      exact insertMark_of_chain h

theorem nfd_elems_none (s : List Nat) : ∀ d ∈ nfd s, canonicalDecomp d = none :=
  fun d hd => fullDecompose_elems_none d (mem_canonicalOrder hd)

theorem nfd_chain (s : List Nat) : List.Chain' ccOrdered (nfd s) :=
  chain'_canonicalOrder _

theorem nfd_idem (s : List Nat) : nfd (nfd s) = nfd s := by
  show canonicalOrder (fullDecompose (nfd s)) = nfd s
  rw [fullDecompose_of_none (fun d hd => nfd_elems_none s d hd)]
  exact canonicalOrder_of_chain (nfd_chain s)

theorem insertMark_0x323_marks (a k : Nat) :
    insertMark 0x323 (List.replicate a 0x323 ++ List.replicate k 0x301) =
      0x323 :: (List.replicate a 0x323 ++ List.replicate k 0x301) := by
  cases a with
  | zero =>
    cases k with
    | zero => rfl
    | succ k => simp [List.replicate_succ, insertMark, combiningClass]
  | succ a => simp [List.replicate_succ, insertMark, combiningClass]

theorem insertMark_0x301_marks (a k : Nat) :
    insertMark 0x301 (List.replicate a 0x323 ++ List.replicate k 0x301) =
      List.replicate a 0x323 ++ List.replicate (k + 1) 0x301 := by
  induction a with
  | zero =>
    cases k with
    | zero => rfl
    | succ k => simp [List.replicate_succ, insertMark, combiningClass]
  | succ a ih => simp [List.replicate_succ, insertMark, combiningClass, ih]

theorem canonicalOrder_marks (a k : Nat) :
    canonicalOrder (List.replicate a 0x323 ++ List.replicate k 0x301) =
      List.replicate a 0x323 ++ List.replicate k 0x301 := by
  induction a with
  | zero =>
    induction k with
    | zero => rfl
    | succ k ihk =>
      simp only [List.replicate_zero, List.nil_append] at ihk ⊢
      rw [List.replicate_succ]
      show insertMark 0x301 (canonicalOrder (List.replicate k 0x301)) = _
      rw [ihk]
      have := insertMark_0x301_marks 0 k
      simpa [List.replicate_succ] using this
  | succ a iha =>
    rw [List.replicate_succ, List.cons_append]
    show insertMark 0x323 (canonicalOrder
      (List.replicate a 0x323 ++ List.replicate k 0x301)) = _
    rw [iha, insertMark_0x323_marks]

theorem insertMark_append_starter {h0 : Nat} (hh : combiningClass h0 = 0) (m : Nat) :
    ∀ (X t : List Nat), insertMark m (X ++ h0 :: t) = insertMark m X ++ h0 :: t := by
  intro X t
  induction X with
  | nil => simp [insertMark, hh]
  | cons x xs ih =>
    rw [List.cons_append]
    unfold insertMark
    split
    · rw [ih]
      rfl
    · rfl

theorem canonicalOrder_cons_starter {h0 : Nat} (hh : combiningClass h0 = 0)
    (t : List Nat) : canonicalOrder (h0 :: t) = h0 :: canonicalOrder t := by
  simp only [canonicalOrder]
  rw [if_pos hh]

theorem canonicalOrder_append_starter {h0 : Nat} (hh : combiningClass h0 = 0) :
    ∀ (A t : List Nat),
      canonicalOrder (A ++ h0 :: t) = canonicalOrder A ++ canonicalOrder (h0 :: t) := by
  intro A t
  induction A with
  | nil => simp [canonicalOrder]
  | cons c A2 ih =>
    by_cases hc : combiningClass c = 0
    · rw [List.cons_append, canonicalOrder_cons_starter hc,
        canonicalOrder_cons_starter hc, ih, List.cons_append]
    · have l1 : canonicalOrder ((c :: A2) ++ h0 :: t) =
          insertMark c (canonicalOrder (A2 ++ h0 :: t)) := by
        rw [List.cons_append]
        simp only [canonicalOrder]
        rw [if_neg hc]
      have l2 : canonicalOrder (c :: A2) = insertMark c (canonicalOrder A2) := by
        simp only [canonicalOrder]
        rw [if_neg hc]
      rw [l1, l2, ih, canonicalOrder_cons_starter hh,
        insertMark_append_starter hh, ← canonicalOrder_cons_starter hh]

theorem marks_decomp_none (a k : Nat) :
    ∀ d ∈ List.replicate a 0x323 ++ List.replicate k 0x301,
      canonicalDecomp d = none := by
  intro d hd
  rcases List.mem_append.mp hd with hd | hd <;>
    rw [List.eq_of_mem_replicate hd] <;> rfl

theorem finishBlock {L : Nat} (a k : Nat) (consumed : Bool)
    (hL : canonicalDecomp L = none) (hL0 : combiningClass L = 0)
    (hcons : consumed = true → L = 0x65) :
    canonicalOrder (fullDecompose ((if consumed then 0xE9 else L) ::
        (List.replicate a 0x323 ++ List.replicate k 0x301)))
      = L :: (List.replicate a 0x323 ++
          List.replicate (k + if consumed then 1 else 0) 0x301) := by
  cases consumed with
  | false =>
    simp only [Bool.false_eq_true, if_false]
    rw [fullDecompose_cons, hL, fullDecompose_of_none (marks_decomp_none a k)]
    simp only [Option.getD_none, List.singleton_append]
    rw [canonicalOrder_cons_starter hL0, canonicalOrder_marks]
    simp
  | true =>
    have hL65 := hcons rfl
    subst hL65
    simp only [if_true]
    rw [fullDecompose_cons, fullDecompose_of_none (marks_decomp_none a k),
      show canonicalDecomp 0xE9 = some [0x65, 0x301] from rfl]
    simp only [Option.getD_some, List.cons_append, List.nil_append]
    rw [canonicalOrder_cons_starter (by rfl),
      show canonicalOrder (0x301 :: (List.replicate a 0x323 ++ List.replicate k 0x301))
        = insertMark 0x301 (canonicalOrder (List.replicate a 0x323 ++ List.replicate k 0x301))
        from by simp only [canonicalOrder]; rw [if_neg (by norm_num [combiningClass])],
      canonicalOrder_marks, insertMark_0x301_marks]

theorem compBlock_cons (cur : Nat) (pend : List Nat) (x : Nat) (xs : List Nat) :
    compBlock cur pend (x :: xs) =
      if combiningClass x = 0 then (cur :: pend.reverse) ++ compBlock x [] xs
      else
        match composePair cur x with
        | some c2 =>
          if notBlocked pend x then compBlock c2 pend xs
          else compBlock cur (x :: pend) xs
        | none => compBlock cur (x :: pend) xs := rfl

theorem compBlock_head : ∀ (rest : List Nat) (cur : Nat) (pend : List Nat),
    ∃ c t, compBlock cur pend rest = c :: t ∧ (c = cur ∨ c = 0xE9) := by
  intro rest
  induction rest with
  | nil => exact fun cur pend => ⟨cur, pend.reverse, rfl, Or.inl rfl⟩
  | cons x xs ih =>
    intro cur pend
    rw [compBlock_cons]
    split
    · exact ⟨cur, pend.reverse ++ compBlock x [] xs, by simp, Or.inl rfl⟩
    · rcases hcp : composePair cur x with _ | c2
      · simp only [hcp]
        exact ih cur (x :: pend)
      · have hc2 : c2 = 0xE9 := by
          unfold composePair at hcp
          split at hcp
          · cases hcp; rfl
          · cases hcp
        simp only [hcp]
        split
        · obtain ⟨c, t, he, hor⟩ := ih c2 pend
          refine ⟨c, t, he, Or.inr ?_⟩
          rcases hor with rfl | rfl
          · exact hc2
          · rfl
        · exact ih cur (x :: pend)

theorem fd_compBlock_starter {cur : Nat}
    (hcur : canonicalDecomp cur = none ∨ cur = 0xE9)
    (hcc : combiningClass cur = 0) (pend rest : List Nat) :
    ∃ h t, fullDecompose (compBlock cur pend rest) = h :: t ∧
      combiningClass h = 0 := by
  obtain ⟨c, t, he, hor⟩ := compBlock_head rest cur pend
  rw [he, fullDecompose_cons]
  rcases hor with rfl | rfl
  · rcases hcur with hnone | h9
    · rw [hnone]
      exact ⟨c, fullDecompose t, by simp, hcc⟩
    · subst h9
      exact ⟨0x65, 0x301 :: fullDecompose t, by rfl, by rfl⟩
  · exact ⟨0x65, 0x301 :: fullDecompose t, by rfl, by rfl⟩

theorem cons_replicate_append (x k : Nat) (Y : List Nat) :
    x :: (List.replicate k x ++ Y) = List.replicate k x ++ x :: Y := by
  induction k with
  | zero => rfl
  | succ k ih => simp [List.replicate_succ, ih]

theorem cons_replicate_eq (x a : Nat) :
    x :: List.replicate a x = List.replicate a x ++ [x] := by
  rw [← List.replicate_succ, List.replicate_succ']

theorem compBlock_nfd :
    ∀ (rest : List Nat) (L a k : Nat) (consumed : Bool) (cur : Nat)
      (pend : List Nat) (w : Nat),
      canonicalDecomp L = none → combiningClass L = 0 →
      (consumed = true → L = 0x65) →
      (∀ c ∈ rest, canonicalDecomp c = none) →
      cur = (if consumed then 0xE9 else L) →
      pend = (List.replicate a 0x323 ++ List.replicate k 0x301).reverse →
      w = (if k ≠ 0 ∨ consumed = true then 0x301
           else if a ≠ 0 then 0x323 else L) →
      List.Chain' ccOrdered (w :: rest) →
      canonicalOrder (fullDecompose (compBlock cur pend rest))
        = L :: (List.replicate a 0x323 ++
            (List.replicate (k + if consumed then 1 else 0) 0x301 ++ rest)) := by
  intro rest
  induction rest with
  | nil =>
    intro L a k consumed cur pend w hL hL0 hcons _ hcur hpend _ _
    subst hcur
    subst hpend
    simp only [compBlock, List.reverse_reverse]
    rw [finishBlock a k consumed hL hL0 hcons]
    simp
  | cons x xs ih =>
    intro L a k consumed cur pend w hL hL0 hcons hrest hcur hpend hw hchain
    have hxchain : List.Chain' ccOrdered (x :: xs) := hchain.tail
    have hRwx : ccOrdered w x := (List.chain'_cons.mp hchain).1
    have hxsrest : ∀ c ∈ xs, canonicalDecomp c = none :=
      fun c hc => hrest c (by simp [hc])
    by_cases hx : combiningClass x = 0
    · -- next starter: close this block and open a new one
      have hxd : canonicalDecomp x = none := hrest x (by simp)
      subst hcur
      subst hpend
      rw [compBlock_cons, if_pos hx, fullDecompose_append]
      obtain ⟨h0, t0, hfd, hcc0⟩ := fd_compBlock_starter (Or.inl hxd) hx [] xs
      rw [hfd, canonicalOrder_append_starter hcc0, ← hfd, List.reverse_reverse]
      rw [finishBlock a k consumed hL hL0 hcons]
      have h2 := ih x 0 0 false x [] x hxd hx (by simp) hxsrest
        (by simp) (by simp) (by simp) hxchain
      simp only [List.replicate_zero, List.nil_append, Nat.add_zero,
        Bool.false_eq_true, if_false] at h2
      rw [h2]
      simp
    · rcases cc_cases hx with hx1 | hx1
      · -- x = U+0301
        subst hx1
        rw [compBlock_cons, if_neg hx]
        cases consumed with
        | true =>
          have hL65 := hcons rfl
          subst hL65
          subst hcur
          subst hpend
          simp only [if_true]
          have hcp : composePair 0xE9 0x301 = none := by simp [composePair]
          rw [hcp]
          dsimp only
          have h2 := ih 0x65 a (k + 1) true 0xE9
            (0x301 :: (List.replicate a 0x323 ++ List.replicate k 0x301).reverse)
            0x301 hL hL0 (fun _ => rfl) hxsrest (by simp)
            (by simp [List.replicate_succ, List.reverse_append,
              cons_replicate_append]) (by simp) hxchain
          rw [h2]
          simp [List.replicate_succ, cons_replicate_append]
        | false =>
          simp only [Bool.false_eq_true, if_false] at hcur
          rw [hcur]
          subst hpend
          by_cases hL65 : L = 0x65
          · subst hL65
            have hcp : composePair 0x65 0x301 = some 0xE9 := by simp [composePair]
            rw [hcp]
            dsimp only
            cases k with
            | zero =>
              have hnb : notBlocked
                  (List.replicate a 0x323 ++ List.replicate 0 0x301).reverse
                  0x301 = true := by
                cases a with
                | zero => rfl
                | succ a =>
                  simp [List.replicate_succ', List.reverse_append, notBlocked,
                    combiningClass]
              rw [if_pos hnb]
              have h2 := ih 0x65 a 0 true 0xE9
                (List.replicate a 0x323 ++ List.replicate 0 0x301).reverse
                0x301 hL hL0 (fun _ => rfl) hxsrest (by simp) rfl (by simp)
                hxchain
              rw [h2]
              simp [List.replicate_succ]
            | succ k2 =>
              have hnb : notBlocked
                  (List.replicate a 0x323 ++ List.replicate (k2 + 1) 0x301).reverse
                  0x301 = false := by
                rw [List.reverse_append, List.reverse_replicate, List.reverse_replicate,
                  List.replicate_succ]
                simp [notBlocked, combiningClass]
              have hnbneg : ¬ (notBlocked
                  (List.replicate a 0x323 ++ List.replicate (k2 + 1) 0x301).reverse
                  0x301 = true) := by
                rw [hnb]
                simp
              rw [if_neg hnbneg]
              have h2 := ih 0x65 a (k2 + 2) false 0x65
                (0x301 :: (List.replicate a 0x323 ++ List.replicate (k2 + 1) 0x301).reverse)
                0x301 hL hL0 (by intro h; cases h) hxsrest (by simp)
                (by simp [List.replicate_succ, List.reverse_append, cons_replicate_append]) (by simp)
                hxchain
              rw [h2]
              simp [List.replicate_succ', cons_replicate_append, cons_replicate_eq]
          · have hcp : composePair L 0x301 = none := by simp [composePair, hL65]
            rw [hcp]
            dsimp only
            have h2 := ih L a (k + 1) false L
              (0x301 :: (List.replicate a 0x323 ++ List.replicate k 0x301).reverse)
              0x301 hL hL0 (by intro h; cases h) hxsrest (by simp)
              (by simp [List.replicate_succ, List.reverse_append, cons_replicate_append]) (by simp)
              hxchain
            rw [h2]
            simp [List.replicate_succ', cons_replicate_append, cons_replicate_eq]
      · -- x = U+0323
        subst hx1
        rw [compBlock_cons, if_neg hx]
        have hkc : ¬ (k ≠ 0 ∨ consumed = true) := by
          intro hor
          rw [hw, if_pos hor] at hRwx
          simp [ccOrdered, combiningClass] at hRwx
        have hk0 : k = 0 := by
          by_contra hkk
          exact hkc (Or.inl hkk)
        have hcf : consumed = false := by
          cases consumed with
          | false => rfl
          | true => exact absurd (Or.inr rfl) hkc
        subst hk0
        subst hcf
        simp only [Bool.false_eq_true, if_false] at hcur
        rw [hcur]
        subst hpend
        have hcp : composePair L 0x323 = none := by simp [composePair]
        rw [hcp]
        dsimp only
        have h2 := ih L (a + 1) 0 false L
          (0x323 :: (List.replicate a 0x323 ++ List.replicate 0 0x301).reverse)
          0x323 hL hL0 (by intro h; cases h) hxsrest (by simp)
          (by simp [List.replicate_succ, List.reverse_append, cons_replicate_append,
            cons_replicate_eq]) (by simp)
          hxchain
        rw [h2]
        simp [List.replicate_succ', cons_replicate_append, cons_replicate_eq]

theorem composeSeq_nfd : ∀ (l : List Nat),
    (∀ c ∈ l, canonicalDecomp c = none) → List.Chain' ccOrdered l →
    canonicalOrder (fullDecompose (composeSeq l)) = l := by
  intro l
  induction l with
  | nil => intro _ _; rfl
  | cons c cs ih =>
    intro hnone hchain
    by_cases hc : combiningClass c = 0
    · have hstep : composeSeq (c :: cs) = compBlock c [] cs := by
        simp only [composeSeq]
        rw [if_pos hc]
      rw [hstep]
      have h := compBlock_nfd cs c 0 0 false c [] c (hnone c (by simp)) hc
        (by intro h; cases h) (fun d hd => hnone d (by simp [hd]))
        (by simp) (by simp) (by simp) hchain
      simpa using h
    · have hstep : composeSeq (c :: cs) = c :: composeSeq cs := by
        simp only [composeSeq]
        rw [if_neg hc]
      rw [hstep, fullDecompose_cons, hnone c (by simp)]
      simp only [Option.getD_none, List.singleton_append]
      have hco : canonicalOrder (c :: fullDecompose (composeSeq cs)) =
          insertMark c (canonicalOrder (fullDecompose (composeSeq cs))) := by
        simp only [canonicalOrder]
        rw [if_neg hc]
      rw [hco, ih (fun d hd => hnone d (by simp [hd])) hchain.tail]
      exact insertMark_of_chain hchain

theorem nfc_idem (s : List Nat) : nfc (nfc s) = nfc s := by
  show composeSeq (canonicalOrder (fullDecompose (composeSeq (nfd s)))) = nfc s
  rw [composeSeq_nfd (nfd s) (nfd_elems_none s) (nfd_chain s)]
  rfl

/-- C8. Normalization is idempotent over the modelled engine: `NFC` and `NFD`
applied twice with the same form equal a single application, both for the
normal-form functions themselves and through the `normalize` operation; the
spec's scenario `normalize("é", "NFD") = "e" + U+0301` also holds. -/
theorem C8_normalize_idempotent (s : List Nat) :
    nfc (nfc s) = nfc s ∧ nfd (nfd s) = nfd s ∧
    (∀ r, zstring_normalize s (some "NFC") = .ok r →
      zstring_normalize r (some "NFC") = .ok r) ∧
    (∀ r, zstring_normalize s (some "NFD") = .ok r →
      zstring_normalize r (some "NFD") = .ok r) ∧
    zstring_normalize [0xE9] (some "NFD") = .ok [0x65, 0x301] := by
  refine ⟨nfc_idem s, nfd_idem s, ?_, ?_, by rfl⟩
  · intro r hr
    rw [show zstring_normalize s (some "NFC") = .ok (nfc s) from rfl] at hr
    cases hr
    rw [show zstring_normalize (nfc s) (some "NFC") = .ok (nfc (nfc s)) from rfl,
      nfc_idem]
  · intro r hr
    rw [show zstring_normalize s (some "NFD") = .ok (nfd s) from rfl] at hr
    cases hr
    rw [show zstring_normalize (nfd s) (some "NFD") = .ok (nfd (nfd s)) from rfl,
      nfd_idem]

/-- Witness for C8 at `s = "e" + U+0301`: its NFC is `"é"`, and normalizing
`"é"` again under NFC returns it unchanged. -/
theorem C8_normalize_idempotent_witness :
    zstring_normalize [0xE9] (some "NFC") = .ok [0xE9] :=
  (C8_normalize_idempotent [0x65, 0x301]).2.2.1 [0xE9] (by rfl)
